import Mathlib

/-!
Verification of the `runlib` job-dispatch core (`src/runlib/condor.py`).

The development shallowly embeds the `Jobs` registry (status vector, FIFO
result queue, drain loop of `finished('map')`, `stop`), the worker loop
(`worker(argv)`), the grouping logic of `CondorPool.submit`, and the
short-circuit paths of `Pool.map` / `Pool.imap_unordered`, and proves the
spec's claims about them.

Machine conventions: job statuses are the integer constants of the source;
`multiprocessing.Queue` is a FIFO list (front = head); elapsed times are
naturals; fallible operations return `Option`/`Except`.  The result-counter
and end-time bookkeeping of `Jobs.getResult` (fields `__counter`,
`__endtimes`) are omitted: no claim mentions them and they influence no
other field.
-/

namespace Runlib

/-! Status constants of class `Jobs` (condor.py lines 129-134). -/

def status_waiting : Nat := 0
def status_sending : Nat := 1
def status_running : Nat := 2
def status_storing : Nat := 3
def status_stored : Nat := 4
def status_done : Nat := 5

/-- State of the `Jobs` registry (condor.py lines 123-157).  `α` is the type
of one argument tuple, `β` the type of one result value.  `outputs` models the
`multiprocessing.Queue` of `(id, value, time)` triples, head = oldest entry.
`results` and `job_ids` are the two parallel lists filled by the drain loop of
`finished('map')`. -/
structure Jobs (α β : Type) where
  inputs : List α
  outputs : List (Nat × β × Nat)
  status : List Nat
  stopping : Bool
  nqueue : Int
  results : List β
  job_ids : List Nat
  totaltime : Nat
deriving DecidableEq

/-- Fresh registry, as built by `Jobs.__init__` (nqueue defaults to -1). -/
def emptyJobs (nqueue : Int) : Jobs α β :=
  ⟨[], [], [], false, nqueue, [], [], 0⟩

/-- `Jobs.putJob` (lines 179-185): append status `waiting` and the argument
tuple. -/
def putJob (s : Jobs α β) (job : α) : Jobs α β :=
  { s with status := s.status ++ [status_waiting], inputs := s.inputs ++ [job] }

/-- `Jobs.getJob` (lines 187-198): set the status to `sending`, read the
arguments, set the status to `running`, return the arguments.  There is no
check of the current status.  A Python `IndexError` (id out of range) is
modelled by returning `none`; the status write raises before mutating, the
argument read raises after the `sending` write. -/
def getJob (s : Jobs α β) (job_id : Nat) : Jobs α β × Option α :=
  if job_id < s.status.length then
    match s.inputs[job_id]? with
    | some args =>
        ({ s with
            status := (s.status.set job_id status_sending).set job_id status_running },
          some args)
    | none => ({ s with status := s.status.set job_id status_sending }, none)
  else (s, none)

/-- `Jobs.putResult` (lines 200-212): silently return when `stopping`;
otherwise set the status to `storing`, enqueue the triple, set the status to
`stored`.  An out-of-range id raises before mutating anything. -/
def putResult (s : Jobs α β) (t : Nat × β × Nat) : Jobs α β :=
  if s.stopping then s
  else if t.1 < s.status.length then
    { s with
      status := (s.status.set t.1 status_storing).set t.1 status_stored,
      outputs := s.outputs ++ [t] }
  else s

/-- `Jobs.getResult` (lines 214-245): dequeue one `(id, value, time)` triple,
set that id's status to `done`, accumulate the total time.  An empty queue
blocks in Python; modelled as `none` with the state unchanged. -/
def getResult (s : Jobs α β) : Jobs α β × Option (Nat × β × Nat) :=
  match s.outputs with
  | [] => (s, none)
  | t :: rest =>
      ({ s with
          outputs := rest,
          status := s.status.set t.1 status_done,
          totaltime := s.totaltime + t.2.2 }, some t)

/-- `Jobs.nstored` (lines 262-264). -/
def nstored (s : Jobs α β) : Nat := s.status.count status_stored

/-- `Jobs.nfetched` (lines 266-267). -/
def nfetched (s : Jobs α β) : Nat := s.status.count status_done

/-- `Jobs.total` (lines 324-327). -/
def total (s : Jobs α β) : Nat := s.inputs.length

/-- Python `bisect.bisect(a, x)` (right bisection), the exact binary-search
loop of the standard library: while `lo < hi`, probe `mid = (lo+hi)/2`; if
`x < a[mid]` move `hi` to `mid`, else move `lo` past `mid`.  The loop is
embedded with a fuel argument so that it is structurally recursive and
computes; `hi - lo` strictly decreases each iteration, so any fuel of at
least `hi - lo` yields the loop's exact result. -/
def bisectGo (a : List Nat) (x : Nat) : Nat → Nat → Nat → Nat
  | 0, lo, _ => lo
  | fuel + 1, lo, hi =>
    if lo < hi then
      let mid := (lo + hi) / 2
      if x < a.getD mid 0 then bisectGo a x fuel lo mid
      else bisectGo a x fuel (mid + 1) hi
    else lo

/-- `bisect(a, x)` enters the loop with `lo = 0`, `hi = len(a)`; `len(a)`
fuel is enough for the whole loop. -/
def bisect (a : List Nat) (x : Nat) : Nat :=
  bisectGo a x a.length 0 a.length

/-- One iteration of the drain loop inside `Jobs.finished('map')` (lines
305-313): dequeue a result, set its status to `done` (again), and insert id
and value into the sorted `__job_ids` / `__results` lists at the position
returned by `bisect`. -/
def drainStep (s : Jobs α β) : Jobs α β :=
  match getResult s with
  | (s1, none) => s1
  | (s1, some t) =>
      let index := bisect s1.job_ids t.1
      { s1 with
        status := s1.status.set t.1 status_done,
        job_ids := s1.job_ids.insertIdx index t.1,
        results := s1.results.insertIdx index t.2.1 }

/-- `for _ in range(n)` around `drainStep`. -/
def drainRep : Nat → Jobs α β → Jobs α β
  | 0, s => s
  | n + 1, s => drainRep n (drainStep s)

/-- `Jobs.finished(mode)` (lines 297-315): in `'map'` mode first drain
`nstored` results (the range bound is read once, before the loop), then
report whether every job has been dequeued. -/
def finishedModel (s : Jobs α β) (mode : String) : Jobs α β × Bool :=
  let s1 := if mode = "map" then drainRep (nstored s) s else s
  (s1, nfetched s1 == total s1)

/-- The state change of `Jobs.stop` (line 252): set the `stopping` flag.  The
subsequent polling loop mutates nothing; its exit condition is modelled by
`stopWaitExit` below. -/
def stopState (s : Jobs α β) : Jobs α β := { s with stopping := true }

/-- Exit condition of the polling loop in `Jobs.stop` (lines 254-260), exactly
as the source computes it: line 257 assigns
`nstoring = self.__status.count(self.status_sending)`, so both counts are of
`status_sending`. -/
def stopWaitExit (status : List Nat) : Bool :=
  (status.count status_sending + status.count status_sending) == 0

/-! Registry operations as a trace alphabet.  The broker serializes all RPC
calls on a single-threaded request loop (`Pyro4.config.SERVERTYPE =
"multiplex"`), so a run is a sequence of registry operations.  `nstoredCall`
is the read-only `nstored()` RPC used by the worker's backpressure loop. -/

inductive Op (α β : Type) where
  | putJob (a : α)
  | getJob (id : Nat)
  | putResult (t : Nat × β × Nat)
  | getResult
  | finished (mode : String)
  | stop
  | nstoredCall
deriving DecidableEq

/-- State transition of one serialized registry operation. -/
def applyOp (s : Jobs α β) : Op α β → Jobs α β
  | .putJob a => putJob s a
  | .getJob id => (getJob s id).1
  | .putResult t => putResult s t
  | .getResult => (getResult s).1
  | .finished mode => (finishedModel s mode).1
  | .stop => stopState s
  | .nstoredCall => s

/-- Run a sequence of registry operations. -/
def applyOps (s : Jobs α β) (ops : List (Op α β)) : Jobs α β :=
  ops.foldl applyOp s

/-- Protocol precondition of an operation: a `getJob` targets an id that is
still `waiting`, an effective `putResult` targets an id that is `running`
(`putResult` under `stopping` is a no-op and needs nothing).  All other
operations are unconstrained. -/
def preB (s : Jobs α β) : Op α β → Bool
  | .getJob id => s.status[id]? == some status_waiting
  | .putResult t => s.stopping || (s.status[t.1]? == some status_running)
  | _ => true

/-- A trace is protocol-valid from `s` when every operation satisfies its
precondition in the state it executes in. -/
def validFromB (s : Jobs α β) : List (Op α β) → Bool
  | [] => true
  | op :: rest => preB s op && validFromB (applyOp s op) rest

/-- Well-formed status vector: every entry is one of the six status
constants, i.e. at most `status_done`. -/
def wfB (s : Jobs α β) : Bool :=
  s.status.all (fun x => decide (x ≤ status_done))

/-- Backpressure discipline exactly as cooperating workers are assumed to
obey it in the amended claim: an effective `putResult` only ever executes in
a state where `nstored < nqueue` (or while stopping, in which case it is a
no-op).  This is the "observation immediately precedes the submission"
reading. -/
def tightBackpressure (s : Jobs α β) : List (Op α β) → Bool
  | [] => true
  | op :: rest =>
    (match op with
     | .putResult _ => s.stopping || decide ((nstored s : Int) < s.nqueue)
     | _ => true) && tightBackpressure (applyOp s op) rest

/-- Worker-tagged trace: each serialized registry call is labelled with the
worker that issued it. -/
def applyWOps (s : Jobs α β) (tr : List (Nat × Op α β)) : Jobs α β :=
  tr.foldl (fun s p => applyOp s p.2) s

/-- Backpressure discipline as the claim literally states it: each worker
observes `nstored < nqueue` (a successful `nstoredCall`) at some point
before submitting a result; arbitrary operations may interleave between the
observation and the submission, as they can on the single-threaded broker
when the worker computes `f(*args)` in between. -/
def looseGo (s : Jobs α β) (passed : List Nat) : List (Nat × Op α β) → Bool
  | [] => true
  | (w, op) :: rest =>
    match op with
    | .nstoredCall =>
        looseGo s (if (nstored s : Int) < s.nqueue then w :: passed else passed) rest
    | .putResult t =>
        passed.contains w && looseGo (applyOp s (.putResult t)) passed rest
    | _ => looseGo (applyOp s op) passed rest

/-- A worker-tagged trace obeys the loose (as-claimed) backpressure contract. -/
def looseBackpressure (s : Jobs α β) (tr : List (Nat × Op α β)) : Bool :=
  looseGo s [] tr

/-! Worker runtime, `worker(argv)` (condor.py lines 808-897).  `fetch id`
models the `jobs.getJob(job_id)` RPC (`.error` is the `AttributeError`
branch), `exec args` models `f(*args)` (`.error` is an exception raised by
the user function; both outcomes are submitted with `putResult`).  The
returned boolean is `true` iff the process exits with code 0. -/

def workerLoop (allIds : List Nat) (fetch : Nat → Except String α)
    (exec : α → Except String β) : List Nat → List (Nat × Except String β) × Bool
  | [] => ([], true)
  | id :: rest =>
    match fetch id with
    | .error e => ([(id, .error e)], false)
    | .ok args =>
      match exec args with
      | .error e =>
        if allIds.length == 1 then ([(id, .error e)], false)
        else
          let out := workerLoop allIds fetch exec rest
          ((id, .error e) :: out.1, out.2)
      | .ok v =>
        let out := workerLoop allIds fetch exec rest
        ((id, .ok v) :: out.1, out.2)

/-- One worker invocation over its assigned id list: the submitted result
records in order, and whether the process exits 0. -/
def workerRun (ids : List Nat) (fetch : Nat → Except String α)
    (exec : α → Except String β) : List (Nat × Except String β) × Bool :=
  workerLoop ids fetch exec ids

/-! Grouping logic of `CondorPool.submit` (condor.py lines 581-583 and
620-628). -/

/-- The generator `chunks(l, n)` (lines 104-109): successive `n`-sized slices
`l[i:i+n]` for `i in range(0, len(l), n)`.  Python raises on `n = 0`; the
theorems below always assume `0 < n`.  The loop is embedded with a fuel
argument so that it is structurally recursive and computes; each iteration
consumes at least one element when `0 < n`, so `len(l)` fuel is enough. -/
def chunksGo (n : Nat) : Nat → List γ → List (List γ)
  | _, [] => []
  | 0, _ :: _ => []
  | fuel + 1, x :: xs => (x :: xs).take n :: chunksGo n fuel (xs.drop (n - 1))

/-- `chunks(l, n)` with the canonical fuel `len(l)`. -/
def chunks (n : Nat) (l : List γ) : List (List γ) :=
  chunksGo n l.length l

/-- Groupsize adjustment when `ngroups` is given (line 583):
`int(jobs.total()/self.__ngroups)+1`, i.e. truncated division plus one (for
nonnegative operands `int(a/b)` is floor division). -/
def groupsizeFromNgroups (N ngroups : Nat) : Nat := N / ngroups + 1

/-- Effective groupsize of `CondorPool.submit`: `groupsize` unless `ngroups`
is given, in which case the adjustment supersedes it. -/
def condorGroupsize (N gs : Nat) : Option Nat → Nat
  | none => gs
  | some ng => groupsizeFromNgroups N ng

/-- Job-id groups of `CondorPool.submit` (line 620): one scheduler task is
written per element of `chunks(range(jobs.total()), groupsize)`, its
argument string being that group's ids joined by spaces. -/
def condorGroups (N gs : Nat) (ng : Option Nat) : List (List Nat) :=
  chunks (condorGroupsize N gs ng) (List.range N)

/-! Orchestrator surface, `Pool.map` / `Pool.imap_unordered` (condor.py lines
376-441 and 477-514).  The report records whether the pyro broker process was
started, how many jobs were registered (`putJob` calls), and whether the
scheduler submission was made; `outcome` is the call's result, with `.error`
for a raised exception.  The body after a successful submission is abstracted
by the `run` parameter (the distributed execution's result vector). -/

structure RunReport (β : Type) where
  brokerStarted : Bool
  jobsRegistered : Nat
  submitted : Bool
  outcome : Except String (List β)

/-- Python name of every lambda function. -/
def lambdaName : String := "<lambda>"

/-- `Pool.map` (lines 376-432): empty input short-circuits to `[]` before
anything is spawned; `_map_async` then rejects lambdas before starting the
broker; after registration and submission, a positive `nqueue` raises. -/
def mapModel (fname : String) (inputs : List α) (nqueue : Int) (run : List β) :
    RunReport β :=
  if inputs.length == 0 then ⟨false, 0, false, .ok []⟩
  else if fname == lambdaName then
    ⟨false, 0, false, .error "Can not run lambda functions using condor.py"⟩
  else if nqueue > 0 then
    ⟨true, inputs.length, true, .error "map is incompatible with the use of nqueue"⟩
  else ⟨true, inputs.length, true, .ok run⟩

/-- `Pool.imap_unordered` (lines 435-474): the generator body checks the
empty input first (yielding nothing), then `_map_async` rejects lambdas
before starting the broker.  There is no `nqueue` restriction. -/
def imapModel (fname : String) (inputs : List α) (run : List β) : RunReport β :=
  if inputs.length == 0 then ⟨false, 0, false, .ok []⟩
  else if fname == lambdaName then
    ⟨false, 0, false, .error "Can not run lambda functions using condor.py"⟩
  else ⟨true, inputs.length, true, .ok run⟩

/-- Verification-side characterization of the drain loop's sorted insertion:
insert `x` into a list after every element `≤ x` (right-biased, as
`bisect.bisect` is).  The lemmas below show that on the sorted `__job_ids`
list the drain loop's `insert(bisect(...), x)` coincides with `insR x`. -/
def insR (x : Nat) : List Nat → List Nat
  | [] => [x]
  | y :: l => if y ≤ x then y :: insR x l else x :: y :: l

/-! Sanity checks of the model on concrete values. -/

example : (getJob (putJob (emptyJobs (-1) : Jobs Nat Nat) 42) 0).2 = some 42 := by
  decide

example :
    nstored (putResult ((getJob (putJob (emptyJobs (-1) : Jobs Nat Nat) 42) 0).1)
      (0, 7, 3)) = 1 := by
  decide

example : bisect [0, 1, 3] 2 = 2 := by decide

example : bisect [0, 1, 3] 3 = 3 := by decide

example :
    (finishedModel
      (⟨[10, 20, 30], [(2, 22, 0), (0, 20, 0), (1, 21, 0)],
        [status_stored, status_stored, status_stored], false, -1, [], [], 0⟩ :
        Jobs Nat Nat) "map").1.results = [20, 21, 22] := by
  decide

example :
    (workerRun [0, 1] (fun id => if id == 0 then .error "AttributeError" else .ok id)
      (fun a => (.ok a : Except String Nat))).2 = false := by
  decide

example : condorGroups 10 1 (some 5) = [[0, 1, 2], [3, 4, 5], [6, 7, 8], [9]] := by
  decide

example :
    mapModel lambdaName ([] : List Nat) (-1) ([] : List Nat) =
      ⟨false, 0, false, Except.ok []⟩ := rfl

/-! Preservation lemmas: the `stopping` flag and the `nqueue` bound are never
mutated by any registry operation other than `stop` (which only raises
`stopping`). -/

theorem getResult_fst_stopping (s : Jobs α β) : (getResult s).1.stopping = s.stopping := by
  rcases s with ⟨inp, outs, st, stp, nq, res, jids, tt⟩
  cases outs <;> rfl

theorem drainStep_stopping (s : Jobs α β) : (drainStep s).stopping = s.stopping := by
  rcases s with ⟨inp, outs, st, stp, nq, res, jids, tt⟩
  cases outs <;> rfl

theorem drainRep_stopping (n : Nat) (s : Jobs α β) :
    (drainRep n s).stopping = s.stopping := by
  induction n generalizing s with
  | zero => rfl
  | succ n ih => rw [drainRep, ih, drainStep_stopping]

theorem getJob_fst_stopping (s : Jobs α β) (id : Nat) :
    (getJob s id).1.stopping = s.stopping := by
  unfold getJob
  split
  · split <;> rfl
  · rfl

theorem putResult_stopping (s : Jobs α β) (t : Nat × β × Nat) :
    (putResult s t).stopping = s.stopping := by
  unfold putResult
  split
  · rfl
  · split <;> rfl

theorem finishedModel_fst_stopping (s : Jobs α β) (mode : String) :
    (finishedModel s mode).1.stopping = s.stopping := by
  by_cases h : mode = "map" <;> simp [finishedModel, h, drainRep_stopping]

theorem applyOp_stopping (s : Jobs α β) (op : Op α β) (h : s.stopping = true) :
    (applyOp s op).stopping = true := by
  cases op with
  | putJob a => exact h
  | getJob id => rw [applyOp, getJob_fst_stopping]; exact h
  | putResult t => rw [applyOp, putResult_stopping]; exact h
  | getResult => rw [applyOp, getResult_fst_stopping]; exact h
  | finished mode => rw [applyOp, finishedModel_fst_stopping]; exact h
  | stop => rfl
  | nstoredCall => exact h

theorem applyOps_stopping (s : Jobs α β) (ops : List (Op α β)) (h : s.stopping = true) :
    (applyOps s ops).stopping = true := by
  induction ops generalizing s with
  | nil => exact h
  | cons op rest ih => exact ih (applyOp s op) (applyOp_stopping s op h)

/-- C4: after `stop()` has returned (the `stopping` flag is set and nothing
ever clears it), every subsequent `putResult` — with any further registry
traffic in between — leaves the registry state unchanged: no status entry is
modified and nothing is enqueued on the result queue. -/
theorem putResult_noop_after_stop (s : Jobs α β) (ops : List (Op α β))
    (t : Nat × β × Nat) :
    putResult (applyOps (stopState s) ops) t = applyOps (stopState s) ops := by
  have h : (applyOps (stopState s) ops).stopping = true :=
    applyOps_stopping (stopState s) ops rfl
  unfold putResult
  rw [if_pos h]

/-- C6: `Jobs.stop`'s waiting loop is meant to block until no job is
`Sending` or `Storing`, but line 257 recounts `status_sending` for
`nstoring`; on the status vector `[status_storing]` (one job mid-`putResult`,
none sending) the loop's exit condition already holds, while the intended
condition (count of sending plus count of storing equal to zero) is false, so
`stop` returns with a `Storing` transition still in flight. -/
theorem stop_exit_ignores_storing :
    stopWaitExit [status_storing] = true ∧
    [status_storing].count status_storing = 1 ∧
    (([status_storing].count status_sending +
      [status_storing].count status_storing) == 0) = false := by
  decide

/-- C9: with empty input, `map` returns the empty result vector and
`imap_unordered` yields the empty stream, and in both cases the orchestrator
short-circuits before the broker process is spawned, before any job is
registered, and before any submission. -/
theorem empty_input_no_broker (fname : String) (nq : Int) (runm runi : List β) :
    mapModel fname ([] : List α) nq runm = ⟨false, 0, false, Except.ok []⟩ ∧
    imapModel fname ([] : List α) runi = ⟨false, 0, false, Except.ok []⟩ :=
  ⟨rfl, rfl⟩

/-- C10 counterexample: a call of `map` (or `imap_unordered`) on a lambda
with empty input returns normally — the empty-input short-circuit precedes
the lambda check — so it is not true that every lambda call raises. -/
theorem lambda_empty_input_raises_nothing :
    (mapModel lambdaName ([] : List Nat) (-1) ([] : List Nat)).outcome =
      Except.ok [] ∧
    (imapModel lambdaName ([] : List Nat) ([] : List Nat)).outcome =
      Except.ok [] :=
  ⟨rfl, rfl⟩

/-- C10 (amended): for every function named `<lambda>` and every nonempty
input, both `map` and `imap_unordered` raise before any broker process is
started, any job is registered, or any submission is made (`imap_unordered`
raises when its generator is first consumed). -/
theorem lambda_rejected_before_broker (inputs : List α) (nq : Int)
    (runm runi : List β) (hne : inputs ≠ []) :
    mapModel lambdaName inputs nq runm =
      ⟨false, 0, false, Except.error "Can not run lambda functions using condor.py"⟩ ∧
    imapModel lambdaName inputs runi =
      ⟨false, 0, false, Except.error "Can not run lambda functions using condor.py"⟩ := by
  have hlen : (inputs.length == 0) = false := by
    simp [List.length_eq_zero, hne]
  constructor <;> simp [mapModel, imapModel, hlen]

theorem lambda_rejected_before_broker_witness :
    ([7] : List Nat) ≠ [] ∧
    mapModel lambdaName ([7] : List Nat) (-1) ([] : List Nat) =
      ⟨false, 0, false, Except.error "Can not run lambda functions using condor.py"⟩ ∧
    imapModel lambdaName ([7] : List Nat) ([] : List Nat) =
      ⟨false, 0, false, Except.error "Can not run lambda functions using condor.py"⟩ := by
  have h := lambda_rejected_before_broker ([7] : List Nat) (-1) ([] : List Nat)
    ([] : List Nat) (by decide)
  exact ⟨by decide, h.1, h.2⟩

/-- C5 counterexample: after job 0 has been fetched once (status `running`,
past `waiting`), a second `getJob 0` does not fail: it returns the stored
arguments again and leaves the status at `running`. -/
theorem getJob_refetch_returns_args :
    ((getJob (putJob (emptyJobs (-1) : Jobs Nat Nat) 42) 0).1).status.getD 0 0 =
      status_running ∧
    status_running ≠ status_waiting ∧
    (getJob ((getJob (putJob (emptyJobs (-1) : Jobs Nat Nat) 42) 0).1) 0).2 =
      some 42 ∧
    (getJob ((getJob (putJob (emptyJobs (-1) : Jobs Nat Nat) 42) 0).1) 0).1.status =
      [status_running] := by
  decide

/-- C5 (amended): `getJob` performs no status check at all: on any in-range
id, whatever its current status, it succeeds, returns the stored arguments
again, and rewrites the status through `sending` to `running`. -/
theorem getJob_ignores_status (s : Jobs α β) (id : Nat)
    (h1 : id < s.status.length) (h2 : id < s.inputs.length) :
    (getJob s id).2 = some s.inputs[id] ∧
    (getJob s id).1.status =
      (s.status.set id status_sending).set id status_running := by
  unfold getJob
  rw [if_pos h1, List.getElem?_eq_getElem h2]
  exact ⟨rfl, rfl⟩

theorem getJob_ignores_status_witness :
    0 < ((getJob (putJob (emptyJobs (-1) : Jobs Nat Nat) 42) 0).1).status.length ∧
    0 < ((getJob (putJob (emptyJobs (-1) : Jobs Nat Nat) 42) 0).1).inputs.length ∧
    (getJob ((getJob (putJob (emptyJobs (-1) : Jobs Nat Nat) 42) 0).1) 0).2 =
      some 42 := by
  have h := getJob_ignores_status
    ((getJob (putJob (emptyJobs (-1) : Jobs Nat Nat) 42) 0).1) 0
    (by decide) (by decide)
  exact ⟨by decide, by decide, h.1⟩

/-! Worker exit-code analysis (C7). -/

theorem workerLoop_all_ok (allIds : List Nat) (fetch : Nat → Except String α)
    (exec : α → Except String β) (hlen : (allIds.length == 1) = false) :
    ∀ l : List Nat, (∀ id ∈ l, (fetch id).isOk = true) →
      (workerLoop allIds fetch exec l).2 = true ∧
      (workerLoop allIds fetch exec l).1.map Prod.fst = l := by
  intro l
  induction l with
  | nil => intro _; exact ⟨rfl, rfl⟩
  | cons id rest ih =>
    intro h
    have hid : (fetch id).isOk = true := h id (List.mem_cons_self id rest)
    obtain ⟨a, ha⟩ : ∃ a, fetch id = .ok a := by
      cases hfe : fetch id with
      | ok a => exact ⟨a, rfl⟩
      | error e => rw [hfe] at hid; simp [Except.isOk, Except.toBool] at hid
    have hrest := ih (fun i hi => h i (List.mem_cons_of_mem _ hi))
    cases hex : exec a with
    | ok v => simp [workerLoop, ha, hex, hrest.1, hrest.2]
    | error e => simp [workerLoop, ha, hex, hlen, hrest.1, hrest.2]

/-- C7 (amended): when every assigned id's `getJob` succeeds, the worker
exits non-zero exactly when it was assigned a single id whose execution
raised, and it submits one result record per assigned id, in order.  (The
unamended claim fails because a `getJob` `AttributeError` re-raises
regardless of the number of assigned ids; see the counterexample.) -/
theorem worker_exit_code (ids : List Nat) (fetch : Nat → Except String α)
    (exec : α → Except String β)
    (h : ∀ id ∈ ids, (fetch id).isOk = true) :
    ((workerRun ids fetch exec).2 = false ↔
      ∃ id a e, ids = [id] ∧ fetch id = Except.ok a ∧ exec a = Except.error e) ∧
    (workerRun ids fetch exec).1.map Prod.fst = ids := by
  cases ids with
  | nil =>
    refine ⟨?_, rfl⟩
    constructor
    · intro hh; simp [workerRun, workerLoop] at hh
    · rintro ⟨id, a, e, hids, -, -⟩; cases hids
  | cons id rest =>
    cases rest with
    | nil =>
      have hid : (fetch id).isOk = true := h id (List.mem_cons_self id [])
      obtain ⟨a, ha⟩ : ∃ a, fetch id = .ok a := by
        cases hfe : fetch id with
        | ok a => exact ⟨a, rfl⟩
        | error e => rw [hfe] at hid; simp [Except.isOk, Except.toBool] at hid
      cases hex : exec a with
      | ok v =>
        have hrun : workerRun [id] fetch exec = ([(id, .ok v)], true) := by
          simp [workerRun, workerLoop, ha, hex]
        rw [hrun]
        refine ⟨⟨fun hh => absurd hh (by simp), ?_⟩, rfl⟩
        rintro ⟨id', a', e', hids, ha', he'⟩
        obtain rfl : id' = id := by cases hids; rfl
        rw [ha] at ha'
        obtain rfl : a' = a := by cases ha'; rfl
        rw [hex] at he'
        cases he'
      | error e =>
        have hrun : workerRun [id] fetch exec = ([(id, .error e)], false) := by
          simp [workerRun, workerLoop, ha, hex]
        rw [hrun]
        exact ⟨⟨fun _ => ⟨id, a, e, rfl, ha, hex⟩, fun _ => rfl⟩, rfl⟩
    | cons id2 rest2 =>
      have hlen : (((id :: id2 :: rest2).length) == 1) = false := by simp
      have hall := workerLoop_all_ok (id :: id2 :: rest2) fetch exec hlen
        (id :: id2 :: rest2) h
      refine ⟨?_, hall.2⟩
      unfold workerRun
      rw [hall.1]
      constructor
      · intro hh; simp at hh
      · rintro ⟨id', a', e', hids, -, -⟩
        simp at hids

theorem worker_exit_code_witness :
    (∀ id ∈ ([5] : List Nat),
      ((fun _ => (Except.ok 3 : Except String Nat)) id).isOk = true) ∧
    ((workerRun [5] (fun _ => (Except.ok 3 : Except String Nat))
        (fun _ => (Except.error "boom" : Except String Nat))).2 = false ↔
      ∃ id a e, ([5] : List Nat) = [id] ∧
        (fun _ => (Except.ok 3 : Except String Nat)) id = Except.ok a ∧
        (fun _ => (Except.error "boom" : Except String Nat)) a = Except.error e) ∧
    (workerRun [5] (fun _ => (Except.ok 3 : Except String Nat))
        (fun _ => (Except.error "boom" : Except String Nat))).1.map Prod.fst = [5] := by
  have h := worker_exit_code [5] (fun _ => (Except.ok 3 : Except String Nat))
    (fun _ => (Except.error "boom" : Except String Nat)) (by intro id _; rfl)
  exact ⟨by intro id _; rfl, h.1, h.2⟩

/-- C7 counterexample: a worker assigned the two ids 0 and 1 whose first
`getJob` raises `AttributeError` submits the error as that id's result and
then re-raises unconditionally (condor.py line 871), exiting non-zero even
though more than one id was assigned — refuting "with more than one assigned
id it exits 0 regardless of per-job failures". -/
theorem worker_two_ids_fetch_error_exits_nonzero :
    (workerRun [0, 1]
      (fun id => if id == 0 then .error "AttributeError" else .ok id)
      (fun a => (.ok a : Except String Nat))).2 = false ∧
    ([0, 1] : List Nat).length ≠ 1 := by
  decide

/-! Grouping lemmas for `CondorPool.submit` (C8). -/

theorem chunksGo_nil (n : Nat) (fuel : Nat) : chunksGo n fuel ([] : List γ) = [] := by
  cases fuel <;> rfl

theorem drop_pred_cons (x : γ) (xs : List γ) (n : Nat) (hn : 0 < n) :
    xs.drop (n - 1) = (x :: xs).drop n := by
  cases n with
  | zero => omega
  | succ m => simp [List.drop_succ_cons]

theorem chunksGo_flatten (n : Nat) (hn : 0 < n) :
    ∀ (fuel : Nat) (l : List γ), l.length ≤ fuel →
      (chunksGo n fuel l).flatten = l := by
  intro fuel
  induction fuel with
  | zero =>
    intro l hl
    obtain rfl : l = [] := List.length_eq_zero.1 (Nat.le_zero.1 hl)
    rfl
  | succ fuel ih =>
    intro l hl
    cases l with
    | nil => rfl
    | cons x xs =>
      show ((x :: xs).take n :: chunksGo n fuel (xs.drop (n - 1))).flatten = x :: xs
      rw [List.flatten_cons,
        ih (xs.drop (n - 1)) (by simp only [List.length_drop]; simp at hl; omega),
        drop_pred_cons x xs n hn, List.take_append_drop]

theorem chunksGo_sizes (n : Nat) (hn : 0 < n) :
    ∀ (fuel : Nat) (l : List γ), ∀ g ∈ chunksGo n fuel l, g ≠ [] ∧ g.length ≤ n := by
  intro fuel
  induction fuel with
  | zero =>
    intro l g hg
    cases l <;> simp [chunksGo] at hg
  | succ fuel ih =>
    intro l g hg
    cases l with
    | nil => simp [chunksGo] at hg
    | cons x xs =>
      rcases List.mem_cons.1 hg with rfl | hg'
      · obtain ⟨m, rfl⟩ := Nat.exists_eq_succ_of_ne_zero (Nat.pos_iff_ne_zero.1 hn)
        refine ⟨by simp [List.take_cons], ?_⟩
        rw [List.length_take]
        exact min_le_left _ _
      · exact ih (xs.drop (n - 1)) g hg'

theorem chunksGo_full_except_last (n : Nat) (hn : 0 < n) :
    ∀ (fuel : Nat) (l : List γ) (i : Nat), i + 1 < (chunksGo n fuel l).length →
      ((chunksGo n fuel l).getD i []).length = n := by
  intro fuel
  induction fuel with
  | zero =>
    intro l i hi
    cases l <;> simp [chunksGo] at hi
  | succ fuel ih =>
    intro l i hi
    cases l with
    | nil => simp [chunksGo] at hi
    | cons x xs =>
      have hrep : chunksGo n (fuel + 1) (x :: xs) =
          (x :: xs).take n :: chunksGo n fuel (xs.drop (n - 1)) := rfl
      rw [hrep] at hi ⊢
      cases i with
      | zero =>
        rw [List.getD_cons_zero, List.length_take]
        have hne : chunksGo n fuel (xs.drop (n - 1)) ≠ [] := by
          intro hnil
          rw [hnil] at hi
          simp at hi
        have hxs : xs.drop (n - 1) ≠ [] := by
          intro hnil
          rw [hnil, chunksGo_nil] at hne
          exact hne rfl
        have hlen : n - 1 < xs.length := by
          by_contra hcon
          exact hxs (List.drop_eq_nil_iff.2 (by omega))
        simp only [List.length_cons]
        omega
      | succ i =>
        rw [List.getD_cons_succ]
        exact ih (xs.drop (n - 1)) i (by simpa using hi)

/-- C8 counterexample: with `N = 10` jobs and `ngroups = 5`, the code's
adjustment `int(jobs.total()/self.__ngroups)+1` yields groupsize 3, not
`⌈10/5⌉ = 2`; four scheduler tasks with id lists `[0,1,2]`, `[3,4,5]`,
`[6,7,8]`, `[9]` are emitted instead of five groups of two. -/
theorem ngroups_groupsize_not_ceil :
    condorGroupsize 10 1 (some 5) = 3 ∧
    (10 + 5 - 1) / 5 = 2 ∧
    condorGroups 10 1 (some 5) = [[0, 1, 2], [3, 4, 5], [6, 7, 8], [9]] := by
  decide

/-- C8 (amended): when `ngroups = k > 0` is specified for `N` jobs, the
effective group size is `G = ⌊N/k⌋ + 1` (truncating division plus one, not
`⌈N/k⌉`), and one scheduler task is emitted per element of
`chunks(range(N), G)`, carrying that group's literal id list: the groups
concatenate, in order, to exactly the ids `0..N-1`; every group is nonempty
with at most `G` ids; and every group except possibly the last has exactly
`G` ids. -/
theorem condor_grouping (N k gs : Nat) (hk : 0 < k) :
    condorGroups N gs (some k) = chunks (N / k + 1) (List.range N) ∧
    (condorGroups N gs (some k)).flatten = List.range N ∧
    (∀ g ∈ condorGroups N gs (some k), g ≠ [] ∧ g.length ≤ N / k + 1) ∧
    (∀ i, i + 1 < (condorGroups N gs (some k)).length →
      ((condorGroups N gs (some k)).getD i []).length = N / k + 1) := by
  have hG : 0 < N / k + 1 := Nat.succ_pos _
  have hlen : (List.range N).length ≤ (List.range N).length := le_rfl
  refine ⟨rfl, ?_, ?_, ?_⟩
  · exact chunksGo_flatten _ hG _ _ hlen
  · exact fun g hg => chunksGo_sizes _ hG _ _ g hg
  · exact fun i hi => chunksGo_full_except_last _ hG _ _ i hi

theorem condor_grouping_witness :
    0 < 5 ∧
    (condorGroups 10 1 (some 5)).flatten = List.range 10 ∧
    (∀ g ∈ condorGroups 10 1 (some 5), g ≠ [] ∧ g.length ≤ 10 / 5 + 1) := by
  have h := condor_grouping 10 5 1 (by decide)
  exact ⟨by decide, h.2.1, h.2.2.1⟩

/-! Counting lemmas for the backpressure bound (C3). -/

theorem count_set_le (l : List Nat) (i x a : Nat) (h : x ≠ a) :
    (l.set i x).count a ≤ l.count a := by
  induction l generalizing i with
  | nil => simp
  | cons y ys ih =>
    cases i with
    | zero => simp [List.count_cons, h]
    | succ i =>
      simp only [List.set_cons_succ, List.count_cons]
      exact Nat.add_le_add_right (ih i) _

theorem count_set_le_succ (l : List Nat) (i x a : Nat) :
    (l.set i x).count a ≤ l.count a + 1 := by
  induction l generalizing i with
  | nil => simp
  | cons y ys ih =>
    cases i with
    | zero => simp [List.count_cons]; split <;> omega
    | succ i =>
      simp only [List.set_cons_succ, List.count_cons]
      have := ih i
      omega

theorem nstored_putJob (s : Jobs α β) (a : α) : nstored (putJob s a) = nstored s := by
  simp only [nstored, putJob, List.count_append]
  have : ([status_waiting].count status_stored) = 0 := by decide
  omega

theorem nstored_getJob (s : Jobs α β) (id : Nat) :
    nstored (getJob s id).1 ≤ nstored s := by
  unfold getJob
  split
  · split
    · exact le_trans
        (count_set_le _ id status_running status_stored (by decide))
        (count_set_le _ id status_sending status_stored (by decide))
    · exact count_set_le _ id status_sending status_stored (by decide)
  · exact le_refl _

theorem nstored_getResult (s : Jobs α β) : nstored (getResult s).1 ≤ nstored s := by
  rcases s with ⟨inp, outs, st, stp, nq, res, jids, tt⟩
  cases outs with
  | nil => exact le_refl _
  | cons t rest =>
    exact count_set_le _ t.1 status_done status_stored (by decide)

theorem nstored_drainStep (s : Jobs α β) : nstored (drainStep s) ≤ nstored s := by
  rcases s with ⟨inp, outs, st, stp, nq, res, jids, tt⟩
  cases outs with
  | nil => exact le_refl _
  | cons t rest =>
    exact le_trans
      (count_set_le _ t.1 status_done status_stored (by decide))
      (count_set_le _ t.1 status_done status_stored (by decide))

theorem nstored_drainRep (n : Nat) (s : Jobs α β) :
    nstored (drainRep n s) ≤ nstored s := by
  induction n generalizing s with
  | zero => exact le_refl _
  | succ n ih => exact le_trans (ih (drainStep s)) (nstored_drainStep s)

theorem nstored_finishedModel (s : Jobs α β) (mode : String) :
    nstored (finishedModel s mode).1 ≤ nstored s := by
  by_cases h : mode = "map" <;> simp [finishedModel, h, nstored_drainRep]

theorem nstored_putResult (s : Jobs α β) (t : Nat × β × Nat) :
    nstored (putResult s t) ≤ nstored s + 1 := by
  unfold putResult
  split
  · omega
  · split
    · exact le_trans
        (count_set_le_succ _ t.1 status_stored status_stored)
        (Nat.add_le_add_right (count_set_le _ t.1 status_storing status_stored (by decide)) 1)
    · omega

theorem nstored_putResult_stopping (s : Jobs α β) (t : Nat × β × Nat)
    (h : s.stopping = true) : putResult s t = s := by
  unfold putResult
  rw [if_pos h]

theorem nqueue_getJob (s : Jobs α β) (id : Nat) : (getJob s id).1.nqueue = s.nqueue := by
  unfold getJob
  split
  · split <;> rfl
  · rfl

theorem nqueue_putResult (s : Jobs α β) (t : Nat × β × Nat) :
    (putResult s t).nqueue = s.nqueue := by
  unfold putResult
  split
  · rfl
  · split <;> rfl

theorem nqueue_getResult (s : Jobs α β) : (getResult s).1.nqueue = s.nqueue := by
  rcases s with ⟨inp, outs, st, stp, nq, res, jids, tt⟩
  cases outs <;> rfl

theorem nqueue_drainStep (s : Jobs α β) : (drainStep s).nqueue = s.nqueue := by
  rcases s with ⟨inp, outs, st, stp, nq, res, jids, tt⟩
  cases outs <;> rfl

theorem nqueue_drainRep (n : Nat) (s : Jobs α β) :
    (drainRep n s).nqueue = s.nqueue := by
  induction n generalizing s with
  | zero => rfl
  | succ n ih => rw [drainRep, ih, nqueue_drainStep]

theorem nqueue_finishedModel (s : Jobs α β) (mode : String) :
    (finishedModel s mode).1.nqueue = s.nqueue := by
  by_cases h : mode = "map" <;> simp [finishedModel, h, nqueue_drainRep]

theorem nqueue_applyOp (s : Jobs α β) (op : Op α β) :
    (applyOp s op).nqueue = s.nqueue := by
  cases op with
  | putJob a => rfl
  | getJob id => exact nqueue_getJob s id
  | putResult t => exact nqueue_putResult s t
  | getResult => exact nqueue_getResult s
  | finished mode => exact nqueue_finishedModel s mode
  | stop => rfl
  | nstoredCall => rfl

/-- C3 (amended): if every effective `putResult` executes in a state where
`nstored < nqueue` was just observed (the observation immediately precedes
the submission on the serialized broker, with nothing in between), then along
the whole trace — at every observable instant, i.e. after every prefix —
`nstored` never exceeds `nqueue`. -/
theorem nstored_le_nqueue_of_tight (s : Jobs α β) (tr1 tr2 : List (Op α β))
    (h0 : (nstored s : Int) ≤ s.nqueue)
    (h : tightBackpressure s (tr1 ++ tr2) = true) :
    (nstored (applyOps s tr1) : Int) ≤ s.nqueue := by
  induction tr1 generalizing s with
  | nil => exact h0
  | cons op rest ih =>
    rw [List.cons_append] at h
    unfold tightBackpressure at h
    rw [Bool.and_eq_true] at h
    have hstep : (nstored (applyOp s op) : Int) ≤ s.nqueue := by
      cases op with
      | putResult t =>
        rcases (Bool.or_eq_true _ _).mp h.1 with hstop | hlt
        · rw [show applyOp s (.putResult t) = putResult s t from rfl,
            nstored_putResult_stopping s t hstop]
          exact h0
        · have hlt' : (nstored s : Int) < s.nqueue := of_decide_eq_true hlt
          have hle : nstored (putResult s t) ≤ nstored s + 1 := nstored_putResult s t
          have : (nstored (putResult s t) : Int) ≤ (nstored s : Int) + 1 := by
            exact_mod_cast hle
          calc (nstored (applyOp s (.putResult t)) : Int)
              ≤ (nstored s : Int) + 1 := this
            _ ≤ s.nqueue := by omega
      | putJob a =>
        rw [show applyOp s (.putJob a) = putJob s a from rfl, nstored_putJob]
        exact h0
      | getJob id =>
        refine le_trans ?_ h0
        exact_mod_cast nstored_getJob s id
      | getResult =>
        refine le_trans ?_ h0
        exact_mod_cast nstored_getResult s
      | finished mode =>
        refine le_trans ?_ h0
        exact_mod_cast nstored_finishedModel s mode
      | stop => exact h0
      | nstoredCall => exact h0
    have hq := nqueue_applyOp s op
    have := ih (applyOp s op) (by rw [hq]; exact hstep) (by exact h.2)
    rw [hq] at this
    exact this

theorem nstored_le_nqueue_of_tight_witness :
    ((nstored (emptyJobs 1 : Jobs Nat Nat) : Int) ≤ (emptyJobs 1 : Jobs Nat Nat).nqueue) ∧
    tightBackpressure (emptyJobs 1 : Jobs Nat Nat)
      ([.putJob 3, .getJob 0, .nstoredCall, .putResult (0, 9, 0)] ++ []) = true ∧
    (nstored (applyOps (emptyJobs 1 : Jobs Nat Nat)
      [.putJob 3, .getJob 0, .nstoredCall, .putResult (0, 9, 0)]) : Int) ≤
      (emptyJobs 1 : Jobs Nat Nat).nqueue := by
  refine ⟨by decide, by decide, ?_⟩
  exact nstored_le_nqueue_of_tight (emptyJobs 1 : Jobs Nat Nat)
    [.putJob 3, .getJob 0, .nstoredCall, .putResult (0, 9, 0)] []
    (by decide) (by decide)

/-- C3 counterexample: with `nqueue = 1` and two workers, each worker
observes `nstored = 0 < 1` (a successful `nstored()` check, as the claim
requires) before submitting, but the two observations are both stale by the
time the two `putResult` calls run on the serialized broker, and afterwards
`nstored = 2 > nqueue = 1`.  The trace satisfies the claim's hypothesis yet
violates its bound. -/
theorem nstored_exceeds_nqueue_with_stale_checks :
    looseBackpressure
      (applyOps (emptyJobs 1 : Jobs Nat Nat)
        [.putJob 11, .putJob 22, .getJob 0, .getJob 1])
      [(1, .nstoredCall), (2, .nstoredCall),
       (1, .putResult (0, 5, 0)), (2, .putResult (1, 6, 0))] = true ∧
    (emptyJobs 1 : Jobs Nat Nat).nqueue = 1 ∧
    nstored (applyWOps
      (applyOps (emptyJobs 1 : Jobs Nat Nat)
        [.putJob 11, .putJob 22, .getJob 0, .getJob 1])
      [(1, .nstoredCall), (2, .nstoredCall),
       (1, .putResult (0, 5, 0)), (2, .putResult (1, 6, 0))]) = 2 ∧
    ¬((nstored (applyWOps
      (applyOps (emptyJobs 1 : Jobs Nat Nat)
        [.putJob 11, .putJob 22, .getJob 0, .getJob 1])
      [(1, .nstoredCall), (2, .nstoredCall),
       (1, .putResult (0, 5, 0)), (2, .putResult (1, 6, 0))]) : Int) ≤
      (applyOps (emptyJobs 1 : Jobs Nat Nat)
        [.putJob 11, .putJob 22, .getJob 0, .getJob 1]).nqueue) := by
  decide

/-! Status-monotonicity machinery (C2). -/

theorem wf_mem (s : Jobs α β) (h : wfB s = true) :
    ∀ x ∈ s.status, x ≤ status_done :=
  fun x hx => of_decide_eq_true ((List.all_eq_true.mp h) x hx)

theorem wf_of_forall (s : Jobs α β) (h : ∀ x ∈ s.status, x ≤ status_done) :
    wfB s = true :=
  List.all_eq_true.mpr fun x hx => decide_eq_true (h x hx)

theorem wf_set (l : List Nat) (i v : Nat) (hv : v ≤ status_done)
    (h : ∀ x ∈ l, x ≤ status_done) : ∀ x ∈ l.set i v, x ≤ status_done := by
  intro x hx
  rcases List.mem_or_eq_of_mem_set hx with hx' | rfl
  · exact h x hx'
  · exact hv

theorem getD_le_status_done (l : List Nat) (h : ∀ x ∈ l, x ≤ status_done)
    (j : Nat) : l.getD j 0 ≤ status_done := by
  by_cases hj : j < l.length
  · rw [List.getD_eq_getElem?_getD, List.getElem?_eq_getElem hj]
    exact h _ (List.getElem_mem hj)
  · rw [List.getD_eq_default _ _ (by omega)]
    exact Nat.zero_le _

theorem getD_le_set (l : List Nat) (j v i : Nat) (hold : l.getD j 0 ≤ v) :
    l.getD i 0 ≤ (l.set j v).getD i 0 := by
  by_cases hij : j = i
  · subst hij
    by_cases hj : j < l.length
    · have hv : (l.set j v).getD j 0 = v := by
        rw [List.getD_eq_getElem?_getD, List.getElem?_set]
        simp [hj]
      rw [hv]
      exact hold
    · have h1 : (l.set j v).getD j 0 = 0 :=
        List.getD_eq_default _ _ (by rw [List.length_set]; omega)
      have h2 : l.getD j 0 = 0 := List.getD_eq_default _ _ (by omega)
      rw [h1, h2]
  · have heq : (l.set j v).getD i 0 = l.getD i 0 := by
      rw [List.getD_eq_getElem?_getD, List.getD_eq_getElem?_getD, List.getElem?_set]
      simp [hij]
    rw [heq]

theorem getD_set_self (l : List Nat) (j v : Nat) (hj : j < l.length) :
    (l.set j v).getD j 0 = v := by
  rw [List.getD_eq_getElem?_getD, List.getElem?_set]
  simp [hj]

theorem wf_getJob (s : Jobs α β) (id : Nat) (h : wfB s = true) :
    wfB (getJob s id).1 = true := by
  unfold getJob
  split
  · split
    · exact wf_of_forall _
        (wf_set _ id status_running (by decide)
          (wf_set _ id status_sending (by decide) (wf_mem s h)))
    · exact wf_of_forall _ (wf_set _ id status_sending (by decide) (wf_mem s h))
  · exact h

theorem wf_putJob (s : Jobs α β) (a : α) (h : wfB s = true) :
    wfB (putJob s a) = true := by
  refine wf_of_forall _ ?_
  intro x hx
  rcases List.mem_append.1 hx with hx' | hx'
  · exact wf_mem s h x hx'
  · rw [List.mem_singleton] at hx'
    subst hx'
    decide

theorem wf_putResult (s : Jobs α β) (t : Nat × β × Nat) (h : wfB s = true) :
    wfB (putResult s t) = true := by
  unfold putResult
  split
  · exact h
  · split
    · exact wf_of_forall _
        (wf_set _ t.1 status_stored (by decide)
          (wf_set _ t.1 status_storing (by decide) (wf_mem s h)))
    · exact h

theorem wf_getResult (s : Jobs α β) (h : wfB s = true) :
    wfB (getResult s).1 = true := by
  rcases s with ⟨inp, outs, st, stp, nq, res, jids, tt⟩
  cases outs with
  | nil => exact h
  | cons t rest =>
    exact wf_of_forall _ (wf_set _ t.1 status_done (by decide) (wf_mem _ h))

theorem wf_drainStep (s : Jobs α β) (h : wfB s = true) :
    wfB (drainStep s) = true := by
  rcases s with ⟨inp, outs, st, stp, nq, res, jids, tt⟩
  cases outs with
  | nil => exact h
  | cons t rest =>
    exact wf_of_forall _
      (wf_set _ t.1 status_done (by decide)
        (wf_set _ t.1 status_done (by decide) (wf_mem _ h)))

theorem wf_drainRep (n : Nat) (s : Jobs α β) (h : wfB s = true) :
    wfB (drainRep n s) = true := by
  induction n generalizing s with
  | zero => exact h
  | succ n ih => exact ih (drainStep s) (wf_drainStep s h)

theorem wf_finishedModel (s : Jobs α β) (mode : String) (h : wfB s = true) :
    wfB (finishedModel s mode).1 = true := by
  by_cases hm : mode = "map" <;> simp [finishedModel, hm, wf_drainRep, h]

theorem wf_applyOp (s : Jobs α β) (op : Op α β) (h : wfB s = true) :
    wfB (applyOp s op) = true := by
  cases op with
  | putJob a => exact wf_putJob s a h
  | getJob id => exact wf_getJob s id h
  | putResult t => exact wf_putResult s t h
  | getResult => exact wf_getResult s h
  | finished mode => exact wf_finishedModel s mode h
  | stop => exact h
  | nstoredCall => exact h

theorem wf_applyOps (s : Jobs α β) (tr : List (Op α β)) (h : wfB s = true) :
    wfB (applyOps s tr) = true := by
  induction tr generalizing s with
  | nil => exact h
  | cons op rest ih => exact ih (applyOp s op) (wf_applyOp s op h)

theorem getD_le_drainStep (s : Jobs α β) (hwf : wfB s = true) (i : Nat) :
    s.status.getD i 0 ≤ (drainStep s).status.getD i 0 := by
  rcases s with ⟨inp, outs, st, stp, nq, res, jids, tt⟩
  cases outs with
  | nil => exact le_refl _
  | cons t rest =>
    refine le_trans
      (getD_le_set st t.1 status_done i (getD_le_status_done st (wf_mem _ hwf) t.1)) ?_
    exact getD_le_set _ t.1 status_done i
      (getD_le_status_done _ (wf_set st t.1 status_done (by decide) (wf_mem _ hwf)) t.1)

theorem getD_le_drainRep (n : Nat) (s : Jobs α β) (hwf : wfB s = true) (i : Nat) :
    s.status.getD i 0 ≤ (drainRep n s).status.getD i 0 := by
  induction n generalizing s with
  | zero => exact le_refl _
  | succ n ih =>
    exact le_trans (getD_le_drainStep s hwf i)
      (ih (drainStep s) (wf_drainStep s hwf))

/-- Monotonicity of one protocol-valid serialized operation: the status of
every id only moves forward along the chain. -/
theorem status_monotone_step (s : Jobs α β) (op : Op α β) (hwf : wfB s = true)
    (hpre : preB s op = true) (i : Nat) :
    s.status.getD i 0 ≤ (applyOp s op).status.getD i 0 := by
  cases op with
  | putJob a =>
    show s.status.getD i 0 ≤ (s.status ++ [status_waiting]).getD i 0
    by_cases hi : i < s.status.length
    · rw [List.getD_append _ _ _ _ hi]
    · rw [List.getD_eq_default _ _ (by omega)]
      exact Nat.zero_le _
  | getJob id =>
    have hval : s.status[id]? = some status_waiting := eq_of_beq hpre
    have hid : id < s.status.length := by
      by_contra hcon
      rw [List.getElem?_eq_none (by omega)] at hval
      cases hval
    have hid0 : s.status.getD id 0 = status_waiting := by
      rw [List.getD_eq_getElem?_getD, hval]
      rfl
    show s.status.getD i 0 ≤ (getJob s id).1.status.getD i 0
    unfold getJob
    rw [if_pos hid]
    rcases hin : s.inputs[id]? with - | args
    · exact getD_le_set _ id status_sending i (by rw [hid0]; decide)
    · refine le_trans (getD_le_set _ id status_sending i (by rw [hid0]; decide)) ?_
      refine getD_le_set _ id status_running i ?_
      rw [getD_set_self _ id status_sending hid]
      decide
  | putResult t =>
    show s.status.getD i 0 ≤ (putResult s t).status.getD i 0
    unfold putResult
    by_cases hstp : s.stopping
    · rw [if_pos hstp]
    · rw [if_neg hstp]
      have hval : s.status[t.1]? = some status_running := by
        rcases (Bool.or_eq_true _ _).mp hpre with h1 | h1
        · exact absurd h1 (by simp [hstp])
        · exact eq_of_beq h1
      have hid : t.1 < s.status.length := by
        by_contra hcon
        rw [List.getElem?_eq_none (by omega)] at hval
        cases hval
      have hid0 : s.status.getD t.1 0 = status_running := by
        rw [List.getD_eq_getElem?_getD, hval]
        rfl
      rw [if_pos hid]
      refine le_trans (getD_le_set _ t.1 status_storing i (by rw [hid0]; decide)) ?_
      refine getD_le_set _ t.1 status_stored i ?_
      rw [getD_set_self _ t.1 status_storing hid]
      decide
  | getResult =>
    show s.status.getD i 0 ≤ (getResult s).1.status.getD i 0
    rcases s with ⟨inp, outs, st, stp, nq, res, jids, tt⟩
    cases outs with
    | nil => exact le_refl _
    | cons t rest =>
      exact getD_le_set st t.1 status_done i
        (getD_le_status_done st (wf_mem _ hwf) t.1)
  | finished mode =>
    show s.status.getD i 0 ≤ (finishedModel s mode).1.status.getD i 0
    by_cases hm : mode = "map"
    · simpa [finishedModel, hm] using getD_le_drainRep (nstored s) s hwf i
    · simp [finishedModel, hm]
  | stop => exact le_refl _
  | nstoredCall => exact le_refl _

theorem validFromB_append (s : Jobs α β) (tr1 tr2 : List (Op α β))
    (h : validFromB s (tr1 ++ tr2) = true) :
    validFromB (applyOps s tr1) tr2 = true := by
  induction tr1 generalizing s with
  | nil => exact h
  | cons op rest ih =>
    rw [List.cons_append] at h
    unfold validFromB at h
    rw [Bool.and_eq_true] at h
    exact ih (applyOp s op) h.2

theorem getD_le_applyOps (s : Jobs α β) (tr : List (Op α β)) (hwf : wfB s = true)
    (hval : validFromB s tr = true) (i : Nat) :
    s.status.getD i 0 ≤ (applyOps s tr).status.getD i 0 := by
  induction tr generalizing s with
  | nil => exact le_refl _
  | cons op rest ih =>
    unfold validFromB at hval
    rw [Bool.and_eq_true] at hval
    exact le_trans (status_monotone_step s op hwf hval.1 i)
      (ih (applyOp s op) (wf_applyOp s op hwf) hval.2)

/-- C2 (amended): along every protocol-valid trace of serialized registry
operations — each `getJob` targets an id still `waiting` and each effective
`putResult` targets an id currently `running`, which is how workers drive the
registry — the status of every job id is monotone non-decreasing along the
chain Waiting, Sending, Running, Storing, Stored, Done: after any extension
of the trace the status is at least what it was.  (Without the validity
hypothesis the claim is false: a re-fetch moves a `Stored` id back to
`Running`; see the counterexample.) -/
theorem status_monotone_of_valid (s : Jobs α β) (tr1 tr2 : List (Op α β))
    (hwf : wfB s = true) (hval : validFromB s (tr1 ++ tr2) = true) (i : Nat) :
    (applyOps s tr1).status.getD i 0 ≤ (applyOps s (tr1 ++ tr2)).status.getD i 0 := by
  have h2 : validFromB (applyOps s tr1) tr2 = true := validFromB_append s tr1 tr2 hval
  have hwf1 : wfB (applyOps s tr1) = true := wf_applyOps s tr1 hwf
  have h3 := getD_le_applyOps (applyOps s tr1) tr2 hwf1 h2 i
  have h4 : applyOps s (tr1 ++ tr2) = applyOps (applyOps s tr1) tr2 := by
    simp [applyOps, List.foldl_append]
  rw [h4]
  exact h3

theorem status_monotone_of_valid_witness :
    wfB (emptyJobs (-1) : Jobs Nat Nat) = true ∧
    validFromB (emptyJobs (-1) : Jobs Nat Nat)
      ([Op.putJob 7] ++ [Op.getJob 0, Op.putResult (0, 9, 0)]) = true ∧
    (applyOps (emptyJobs (-1) : Jobs Nat Nat) [Op.putJob 7]).status.getD 0 0 ≤
      (applyOps (emptyJobs (-1) : Jobs Nat Nat)
        ([Op.putJob 7] ++ [Op.getJob 0, Op.putResult (0, 9, 0)])).status.getD 0 0 := by
  refine ⟨by decide, by decide, ?_⟩
  exact status_monotone_of_valid (emptyJobs (-1) : Jobs Nat Nat)
    [Op.putJob 7] [Op.getJob 0, Op.putResult (0, 9, 0)] (by decide) (by decide) 0

/-- C2 counterexample: the registry operations perform no status checks, so
the trace putJob, getJob 0, putResult 0, getJob 0 — a worker re-fetching a
finished id — moves job 0's status from `Stored` (4) back to `Running` (2):
statuses are not monotone over every sequence of registry operations. -/
theorem status_regresses_on_refetch :
    (applyOps (emptyJobs (-1) : Jobs Nat Nat)
      [Op.putJob 7, Op.getJob 0, Op.putResult (0, 9, 0)]).status.getD 0 0 =
      status_stored ∧
    (applyOps (emptyJobs (-1) : Jobs Nat Nat)
      [Op.putJob 7, Op.getJob 0, Op.putResult (0, 9, 0),
        Op.getJob 0]).status.getD 0 0 = status_running ∧
    status_running < status_stored := by
  decide

/-! Drain-loop ordering machinery (C1): `bisect` on a sorted list is the
right bisection point, insertion there is right-biased sorted insertion, and
draining a queue whose ids are a permutation of `0..N-1` rebuilds id order. -/

theorem sorted_getD_le (a : List Nat) (hs : a.Sorted (· ≤ ·)) (i j : Nat)
    (hij : i ≤ j) (hj : j < a.length) : a.getD i 0 ≤ a.getD j 0 := by
  have hi : i < a.length := lt_of_le_of_lt hij hj
  rw [List.getD_eq_getElem a 0 hi, List.getD_eq_getElem a 0 hj]
  rcases Nat.eq_or_lt_of_le hij with rfl | hlt
  · exact le_refl _
  · have h2 := hs.rel_get_of_lt (a := ⟨i, hi⟩) (b := ⟨j, hj⟩) (Fin.mk_lt_mk.mpr hlt)
    simpa using h2

theorem countP_eq_of_pivot (a : List Nat) (x lo : Nat) (hlen : lo ≤ a.length)
    (hlo : ∀ k, k < lo → a.getD k 0 ≤ x)
    (hhi : ∀ k, lo ≤ k → k < a.length → x < a.getD k 0) :
    a.countP (fun y => decide (y ≤ x)) = lo := by
  have h1 : (a.take lo).countP (fun y => decide (y ≤ x)) = lo := by
    have hlt : (a.take lo).length = lo := by rw [List.length_take]; omega
    have hall : ∀ b ∈ a.take lo, (fun y => decide (y ≤ x)) b = true := by
      intro b hb
      obtain ⟨i, hi, hbi⟩ := List.mem_iff_getElem.mp hb
      rw [List.getElem_take] at hbi
      have hilo : i < lo := by rw [hlt] at hi; exact hi
      have hilen : i < a.length := by
        have h4 := hi
        rw [List.length_take] at h4
        omega
      subst hbi
      apply decide_eq_true
      have h5 := hlo i hilo
      rw [List.getD_eq_getElem a 0 hilen] at h5
      exact h5
    rw [List.countP_eq_length.mpr hall, hlt]
  have h2 : (a.drop lo).countP (fun y => decide (y ≤ x)) = 0 := by
    apply List.countP_eq_zero.mpr
    intro b hb
    obtain ⟨j, hj, hbj⟩ := List.mem_iff_getElem.mp hb
    rw [List.getElem_drop] at hbj
    have hjlen : lo + j < a.length := by rw [List.length_drop] at hj; omega
    have hx := hhi (lo + j) (by omega) hjlen
    rw [List.getD_eq_getElem a 0 hjlen] at hx
    subst hbj
    simp only [decide_eq_true_eq]
    omega
  calc a.countP (fun y => decide (y ≤ x))
      = (a.take lo ++ a.drop lo).countP (fun y => decide (y ≤ x)) := by
        rw [List.take_append_drop]
    _ = (a.take lo).countP (fun y => decide (y ≤ x)) +
          (a.drop lo).countP (fun y => decide (y ≤ x)) := List.countP_append _ _ _
    _ = lo := by rw [h1, h2]; omega

theorem bisectGo_eq_countP (a : List Nat) (x : Nat) (hs : a.Sorted (· ≤ ·)) :
    ∀ (fuel lo hi : Nat), hi - lo ≤ fuel → lo ≤ hi → hi ≤ a.length →
      (∀ k, k < lo → a.getD k 0 ≤ x) →
      (∀ k, hi ≤ k → k < a.length → x < a.getD k 0) →
      bisectGo a x fuel lo hi = a.countP (fun y => decide (y ≤ x)) := by
  intro fuel
  induction fuel with
  | zero =>
    intro lo hi hfuel hle hhi hlow hhigh
    have heq : lo = hi := by omega
    subst heq
    exact (countP_eq_of_pivot a x lo hhi hlow (fun k hk1 hk2 => hhigh k hk1 hk2)).symm
  | succ fuel ih =>
    intro lo hi hfuel hle hhi hlow hhigh
    by_cases hlh : lo < hi
    · show (if lo < hi then
          if x < a.getD ((lo + hi) / 2) 0 then bisectGo a x fuel lo ((lo + hi) / 2)
          else bisectGo a x fuel ((lo + hi) / 2 + 1) hi
        else lo) = _
      rw [if_pos hlh]
      have hmidlo : lo ≤ (lo + hi) / 2 := by omega
      have hmidhi : (lo + hi) / 2 < hi := by omega
      have hmidlen : (lo + hi) / 2 < a.length := lt_of_lt_of_le hmidhi hhi
      by_cases hx : x < a.getD ((lo + hi) / 2) 0
      · rw [if_pos hx]
        apply ih lo ((lo + hi) / 2) (by omega) (by omega) (le_of_lt hmidlen) hlow
        intro k hk hklen
        exact lt_of_lt_of_le hx (sorted_getD_le a hs _ k hk hklen)
      · rw [if_neg hx]
        push_neg at hx
        apply ih ((lo + hi) / 2 + 1) hi (by omega) (by omega) hhi
        · intro k hk
          rcases Nat.lt_or_ge k lo with hkl | hkl
          · exact hlow k hkl
          · have hkm : k ≤ (lo + hi) / 2 := by omega
            exact le_trans (sorted_getD_le a hs k _ hkm hmidlen) hx
        · exact hhigh
    · show (if lo < hi then
          if x < a.getD ((lo + hi) / 2) 0 then bisectGo a x fuel lo ((lo + hi) / 2)
          else bisectGo a x fuel ((lo + hi) / 2 + 1) hi
        else lo) = _
      rw [if_neg hlh]
      have heq : lo = hi := by omega
      subst heq
      exact (countP_eq_of_pivot a x lo hhi hlow (fun k hk1 hk2 => hhigh k hk1 hk2)).symm

theorem bisect_sorted (a : List Nat) (x : Nat) (hs : a.Sorted (· ≤ ·)) :
    bisect a x = a.countP (fun y => decide (y ≤ x)) := by
  unfold bisect
  exact bisectGo_eq_countP a x hs a.length 0 a.length (by omega) (Nat.zero_le _)
    (le_refl _) (fun k hk => absurd hk (Nat.not_lt_zero k))
    (fun k hk hk2 => absurd hk2 (by omega))

theorem insR_perm (x : Nat) (l : List Nat) : List.Perm (insR x l) (x :: l) := by
  induction l with
  | nil => exact List.Perm.refl _
  | cons y ys ih =>
    by_cases hxy : y ≤ x
    · simp only [insR, if_pos hxy]
      exact List.Perm.trans (List.Perm.cons y ih) (List.Perm.swap x y ys)
    · simp only [insR, if_neg hxy]
      exact List.Perm.refl _

theorem insR_mem (b x : Nat) (l : List Nat) : b ∈ insR x l ↔ b = x ∨ b ∈ l := by
  rw [(insR_perm x l).mem_iff]
  exact List.mem_cons

theorem insR_sorted (x : Nat) (l : List Nat) (hs : l.Sorted (· ≤ ·)) :
    (insR x l).Sorted (· ≤ ·) := by
  induction l with
  | nil => simp [insR]
  | cons y ys ih =>
    rcases List.sorted_cons.mp hs with ⟨hy, hys⟩
    by_cases hxy : y ≤ x
    · simp only [insR, if_pos hxy]
      rw [List.sorted_cons]
      refine ⟨?_, ih hys⟩
      intro b hb
      rcases (insR_mem b x ys).mp hb with rfl | hb'
      · exact hxy
      · exact hy b hb'
    · simp only [insR, if_neg hxy]
      rw [List.sorted_cons]
      refine ⟨?_, hs⟩
      intro b hb
      rcases List.mem_cons.mp hb with rfl | hb'
      · omega
      · exact le_trans (by omega) (hy b hb')

theorem insertIdx_countP_eq_insR (x : Nat) (l : List Nat) (hs : l.Sorted (· ≤ ·)) :
    l.insertIdx (l.countP (fun y => decide (y ≤ x))) x = insR x l := by
  induction l with
  | nil => rfl
  | cons y ys ih =>
    rcases List.sorted_cons.mp hs with ⟨hy, hys⟩
    by_cases hxy : y ≤ x
    · have hc : (y :: ys).countP (fun y => decide (y ≤ x)) =
          ys.countP (fun y => decide (y ≤ x)) + 1 := by
        rw [List.countP_cons]
        simp [hxy]
      rw [hc, List.insertIdx_succ_cons, ih hys]
      simp [insR, hxy]
    · have hc : (y :: ys).countP (fun y => decide (y ≤ x)) = 0 := by
        rw [List.countP_eq_zero]
        intro b hb
        rcases List.mem_cons.mp hb with rfl | hb'
        · simp [hxy]
        · have hyb := hy b hb'
          simp only [decide_eq_true_eq]
          omega
      rw [hc, List.insertIdx_zero]
      simp [insR, hxy]

theorem map_insertIdx (f : Nat → β) (l : List Nat) :
    ∀ (n : Nat) (a : Nat),
      (l.insertIdx n a).map f = (l.map f).insertIdx n (f a) := by
  induction l with
  | nil =>
    intro n a
    cases n with
    | zero => rfl
    | succ n => rfl
  | cons y ys ih =>
    intro n a
    cases n with
    | zero => rfl
    | succ n =>
      rw [List.insertIdx_succ_cons, List.map_cons, ih n a, List.map_cons,
        List.insertIdx_succ_cons]

theorem getD_set_or (l : List Nat) (j v i : Nat) :
    (l.set j v).getD i 0 = l.getD i 0 ∨ (l.set j v).getD i 0 = v := by
  by_cases hij : j = i
  · subst hij
    by_cases hj : j < l.length
    · right
      exact getD_set_self l j v hj
    · left
      rw [List.getD_eq_default _ _ (by rw [List.length_set]; omega),
        List.getD_eq_default _ _ (by omega)]
  · left
    rw [List.getD_eq_getElem?_getD, List.getD_eq_getElem?_getD, List.getElem?_set]
    simp [hij]

/-- Draining the whole result queue: if the registry's `__job_ids` /
`__results` lists are sorted and value-consistent, then after `len(queue)`
drain iterations the queue is empty, `__job_ids` stays sorted and has
absorbed exactly the drained ids, `__results` stays the value image of
`__job_ids`, and every drained id's status is `done`. -/
theorem drain_all (v : Nat → β) :
    ∀ (recs : List (Nat × β × Nat)) (s : Jobs α β),
      s.outputs = recs →
      s.job_ids.Sorted (· ≤ ·) →
      s.results = s.job_ids.map v →
      (∀ r ∈ recs, r.2.1 = v r.1) →
      (∀ r ∈ recs, r.1 < s.status.length) →
      (drainRep recs.length s).outputs = [] ∧
      (drainRep recs.length s).inputs = s.inputs ∧
      (drainRep recs.length s).job_ids.Sorted (· ≤ ·) ∧
      List.Perm (drainRep recs.length s).job_ids (recs.map Prod.fst ++ s.job_ids) ∧
      (drainRep recs.length s).results = (drainRep recs.length s).job_ids.map v ∧
      (drainRep recs.length s).status.length = s.status.length ∧
      (∀ i, (drainRep recs.length s).status.getD i 0 = s.status.getD i 0 ∨
        (drainRep recs.length s).status.getD i 0 = status_done) ∧
      (∀ r ∈ recs, (drainRep recs.length s).status.getD r.1 0 = status_done) := by
  intro recs
  induction recs with
  | nil =>
    intro s houts hsort hres hv hbound
    refine ⟨houts, rfl, hsort, List.Perm.refl _, hres, rfl, fun i => Or.inl rfl,
      fun r hr => absurd hr (List.not_mem_nil r)⟩
  | cons r rest ih =>
    intro s houts hsort hres hv hbound
    rcases s with ⟨inp, outs, st, stp, nq, res, jids, tt⟩
    have houts0 : outs = r :: rest := houts
    subst houts0
    have hsort0 : jids.Sorted (· ≤ ·) := hsort
    have hres0 : res = jids.map v := hres
    have hbound0 : ∀ r' ∈ r :: rest, r'.1 < st.length := hbound
    have hv1 : r.2.1 = v r.1 := hv r (List.mem_cons_self r rest)
    have hb1 : r.1 < st.length := hbound0 r (List.mem_cons_self r rest)
    have hjids' : jids.insertIdx (bisect jids r.1) r.1 = insR r.1 jids := by
      rw [bisect_sorted jids r.1 hsort0]
      exact insertIdx_countP_eq_insR r.1 jids hsort0
    have hres' : res.insertIdx (bisect jids r.1) r.2.1 = (insR r.1 jids).map v := by
      rw [hres0, hv1, ← hjids']
      exact (map_insertIdx v jids (bisect jids r.1) r.1).symm
    have hstep : drainStep (⟨inp, r :: rest, st, stp, nq, res, jids, tt⟩ : Jobs α β) =
        ⟨inp, rest, (st.set r.1 status_done).set r.1 status_done, stp, nq,
          (insR r.1 jids).map v, insR r.1 jids, tt + r.2.2⟩ := by
      show (⟨inp, rest, (st.set r.1 status_done).set r.1 status_done, stp, nq,
          res.insertIdx (bisect jids r.1) r.2.1,
          jids.insertIdx (bisect jids r.1) r.1, tt + r.2.2⟩ : Jobs α β) = _
      rw [hjids', hres']
    have hgoal : drainRep ((r :: rest).length)
          (⟨inp, r :: rest, st, stp, nq, res, jids, tt⟩ : Jobs α β) =
        drainRep rest.length
          (⟨inp, rest, (st.set r.1 status_done).set r.1 status_done, stp, nq,
            (insR r.1 jids).map v, insR r.1 jids, tt + r.2.2⟩ : Jobs α β) := by
      show drainRep rest.length
          (drainStep (⟨inp, r :: rest, st, stp, nq, res, jids, tt⟩ : Jobs α β)) = _
      rw [hstep]
    obtain ⟨ho, hi2, hs2, hp2, hr2, hl2, hd2, hdone2⟩ :=
      ih (⟨inp, rest, (st.set r.1 status_done).set r.1 status_done, stp, nq,
          (insR r.1 jids).map v, insR r.1 jids, tt + r.2.2⟩ : Jobs α β)
        rfl (insR_sorted r.1 jids hsort0) rfl
        (fun r' hr' => hv r' (List.mem_cons_of_mem r hr'))
        (fun r' hr' => by
          simp only [List.length_set]
          exact hbound0 r' (List.mem_cons_of_mem r hr'))
    rw [hgoal]
    refine ⟨ho, hi2, hs2, ?_, hr2, ?_, ?_, ?_⟩
    · have c1 : List.Perm (rest.map Prod.fst ++ insR r.1 jids)
          (rest.map Prod.fst ++ (r.1 :: jids)) :=
        List.Perm.append_left _ (insR_perm r.1 jids)
      have c2 : List.Perm (rest.map Prod.fst ++ (r.1 :: jids))
          (r.1 :: (rest.map Prod.fst ++ jids)) := List.perm_middle
      exact hp2.trans (c1.trans c2)
    · rw [hl2, List.length_set, List.length_set]
    · intro i
      rcases hd2 i with h | h
      · rcases getD_set_or (st.set r.1 status_done) r.1 status_done i with h1 | h1
        · rcases getD_set_or st r.1 status_done i with h0 | h0
          · left
            rw [h, h1, h0]
          · right
            rw [h, h1, h0]
        · right
          rw [h, h1]
      · right
        exact h
    · intro r' hr'
      rcases List.mem_cons.mp hr' with rfl | hr''
      · rcases hd2 r'.1 with h | h
        · rw [h]
          exact getD_set_self _ r'.1 status_done (by rw [List.length_set]; exact hb1)
        · exact h
      · exact hdone2 r' hr''

/-- Equation of `Jobs.finished('map')`. -/
theorem finishedModel_map (s : Jobs α β) :
    finishedModel s "map" =
      (drainRep (nstored s) s,
        nfetched (drainRep (nstored s) s) == total (drainRep (nstored s) s)) := rfl

/-- C1: for a map-mode run of `N` registered jobs whose result queue holds —
in arbitrary FIFO arrival order — exactly one record per job id with the
value produced for that id, `finished('map')` drains every record (one per
id), returns true, and leaves the registry's ordered result vector holding,
at each position, the outcome of the job registered at that input position:
`__job_ids = [0..N-1]` and `__results = [v 0, ..., v (N-1)]`.  `Pool.map`
then returns exactly this `__results` vector. -/
theorem finished_map_returns_ordered_results (N : Nat) (inp : List α)
    (v : Nat → β) (recs : List (Nat × β × Nat))
    (hinp : inp.length = N)
    (hids : List.Perm (recs.map Prod.fst) (List.range N))
    (hv : ∀ r ∈ recs, r.2.1 = v r.1) :
    (finishedModel (⟨inp, recs, List.replicate N status_stored, false, -1, [], [], 0⟩ :
        Jobs α β) "map").2 = true ∧
    (finishedModel (⟨inp, recs, List.replicate N status_stored, false, -1, [], [], 0⟩ :
        Jobs α β) "map").1.job_ids = List.range N ∧
    (finishedModel (⟨inp, recs, List.replicate N status_stored, false, -1, [], [], 0⟩ :
        Jobs α β) "map").1.results = (List.range N).map v := by
  have hreclen : recs.length = N := by
    have h := hids.length_eq
    simpa using h
  have hnst : nstored (⟨inp, recs, List.replicate N status_stored, false, -1, [], [], 0⟩ :
      Jobs α β) = N := by
    show (List.replicate N status_stored).count status_stored = N
    exact List.count_replicate_self _ _
  have hbound : ∀ r ∈ recs,
      r.1 < (⟨inp, recs, List.replicate N status_stored, false, -1, [], [], 0⟩ :
        Jobs α β).status.length := by
    intro r hr
    show r.1 < (List.replicate N status_stored).length
    rw [List.length_replicate]
    have h1 : r.1 ∈ recs.map Prod.fst := List.mem_map_of_mem Prod.fst hr
    exact List.mem_range.mp (hids.mem_iff.mp h1)
  obtain ⟨ho, hi2, hs2, hp2, hr2, hl2, hd2, hdone2⟩ :=
    drain_all v recs
      (⟨inp, recs, List.replicate N status_stored, false, -1, [], [], 0⟩ : Jobs α β)
      rfl List.sorted_nil rfl hv hbound
  have hrew : drainRep (nstored (⟨inp, recs, List.replicate N status_stored, false,
        -1, [], [], 0⟩ : Jobs α β))
      (⟨inp, recs, List.replicate N status_stored, false, -1, [], [], 0⟩ : Jobs α β) =
      drainRep recs.length
      (⟨inp, recs, List.replicate N status_stored, false, -1, [], [], 0⟩ : Jobs α β) := by
    rw [hnst, hreclen]
  have hperm : List.Perm (drainRep recs.length
      (⟨inp, recs, List.replicate N status_stored, false, -1, [], [], 0⟩ :
        Jobs α β)).job_ids (List.range N) := by
    have h := hp2
    rw [List.append_nil] at h
    exact h.trans hids
  have hjid : (drainRep recs.length
      (⟨inp, recs, List.replicate N status_stored, false, -1, [], [], 0⟩ :
        Jobs α β)).job_ids = List.range N :=
    List.eq_of_perm_of_sorted hperm hs2 (List.sorted_le_range N)
  have hresult : (drainRep recs.length
      (⟨inp, recs, List.replicate N status_stored, false, -1, [], [], 0⟩ :
        Jobs α β)).results = (List.range N).map v := by
    rw [hr2, hjid]
  have hstlen : (drainRep recs.length
      (⟨inp, recs, List.replicate N status_stored, false, -1, [], [], 0⟩ :
        Jobs α β)).status.length = N := by
    rw [hl2]
    exact List.length_replicate _ _
  have hrepl : (drainRep recs.length
      (⟨inp, recs, List.replicate N status_stored, false, -1, [], [], 0⟩ :
        Jobs α β)).status = List.replicate N status_done := by
    rw [List.eq_replicate_iff]
    refine ⟨hstlen, ?_⟩
    intro b hb
    obtain ⟨i, hi, hbi⟩ := List.mem_iff_getElem.mp hb
    have hiN : i < N := by rw [hstlen] at hi; exact hi
    have h1 : i ∈ recs.map Prod.fst := hids.mem_iff.mpr (List.mem_range.mpr hiN)
    obtain ⟨r, hr, rfl⟩ := List.mem_map.mp h1
    have h2 := hdone2 r hr
    rw [List.getD_eq_getElem _ 0 hi] at h2
    rw [← hbi, h2]
  have hnf : nfetched (drainRep recs.length
      (⟨inp, recs, List.replicate N status_stored, false, -1, [], [], 0⟩ :
        Jobs α β)) = N := by
    show (drainRep recs.length _).status.count status_done = N
    rw [hrepl]
    exact List.count_replicate_self _ _
  have htot : total (drainRep recs.length
      (⟨inp, recs, List.replicate N status_stored, false, -1, [], [], 0⟩ :
        Jobs α β)) = N := by
    show (drainRep recs.length _).inputs.length = N
    rw [hi2]
    exact hinp
  rw [finishedModel_map, hrew]
  refine ⟨?_, hjid, hresult⟩
  show (nfetched _ == total _) = true
  rw [hnf, htot]
  simp

theorem finished_map_returns_ordered_results_witness :
    ([10, 20, 30] : List Nat).length = 3 ∧
    List.Perm (([(2, 22, 0), (0, 20, 0), (1, 21, 0)] :
      List (Nat × Nat × Nat)).map Prod.fst) (List.range 3) ∧
    (∀ r ∈ ([(2, 22, 0), (0, 20, 0), (1, 21, 0)] : List (Nat × Nat × Nat)),
      r.2.1 = (fun i => 20 + i) r.1) ∧
    (finishedModel (⟨[10, 20, 30], [(2, 22, 0), (0, 20, 0), (1, 21, 0)],
        List.replicate 3 status_stored, false, -1, [], [], 0⟩ :
        Jobs Nat Nat) "map").2 = true ∧
    (finishedModel (⟨[10, 20, 30], [(2, 22, 0), (0, 20, 0), (1, 21, 0)],
        List.replicate 3 status_stored, false, -1, [], [], 0⟩ :
        Jobs Nat Nat) "map").1.job_ids = List.range 3 ∧
    (finishedModel (⟨[10, 20, 30], [(2, 22, 0), (0, 20, 0), (1, 21, 0)],
        List.replicate 3 status_stored, false, -1, [], [], 0⟩ :
        Jobs Nat Nat) "map").1.results = (List.range 3).map (fun i => 20 + i) := by
  have h := finished_map_returns_ordered_results 3 ([10, 20, 30] : List Nat)
    (fun i => 20 + i) ([(2, 22, 0), (0, 20, 0), (1, 21, 0)] : List (Nat × Nat × Nat))
    (by decide) (by decide) (by decide)
  exact ⟨by decide, by decide, by decide, h.1, h.2.1, h.2.2⟩

end Runlib
